import Mathlib

/-!
Verification development for the FXrays filtered extremal-ray enumeration
engine (double description method with illegal-support filtering).

The repository's algorithmic core (c_src/FXrays.c) is not present in the
source tree made available here; only the packaging script `setup.py` is.
The engine below is therefore modelled from the specification, component by
component, and `setup.py`'s version extraction is embedded directly from its
source.
-/

namespace FXrays

/-- Modelled from the spec (the engine source `c_src/FXrays.c` is missing):
`dot(vector, row) -> integer`, the signed inner product of a candidate ray
with a constraint row, over exact (unbounded) integers. -/
def dot (v w : List Int) : Int :=
  (List.zipWith (fun a b => a * b) v w).sum

/-- Modelled from the spec (engine source missing): the GCD of the entries of
a vector (the GCD of the non-zero entries; zero entries do not change a GCD). -/
def gcdVec (v : List Int) : Nat :=
  v.foldr (fun x g => Nat.gcd x.natAbs g) 0

/-- Modelled from the spec (engine source missing): `normalize(vector)`
divides all entries by the GCD of the non-zero entries, preserving direction. -/
def normalize (v : List Int) : List Int :=
  v.map (fun x => x / (gcdVec v : Int))

/-- Modelled from the spec (engine source missing): `support(vector)`, the set
of indices where the vector is non-zero. -/
def support (v : List Int) : Finset Nat :=
  (Finset.range v.length).filter (fun i => v.getD i 0 ≠ 0)

/-- Modelled from the spec (engine source missing): a Ray is a
(Vector, ZeroSet) pair; the ZeroSet holds indices of already-processed
constraint rows on which the vector evaluates to exactly zero. -/
structure Ray where
  vector : List Int
  zeroSet : Finset Nat
deriving DecidableEq

/-- Modelled from the spec (engine source missing): `is_legal(support)` is
true unless `support` is a superset of some set in the IllegalSupportSet. -/
def is_legal (supp : Finset Nat) (illegal : List (Finset Nat)) : Bool :=
  illegal.all (fun s => ! decide (s ⊆ supp))

/-- Modelled from the spec (engine source missing): the combinatorial
adjacency test.  A positive/negative pair (u, v) is adjacent iff no other ray
w in the positive-or-negative partition has Z(w) ⊇ Z(u) ∩ Z(v). -/
def adjacent (u v : Ray) (others : List Ray) : Bool :=
  others.all (fun w => ! decide ((u.zeroSet ∩ v.zeroSet) ⊆ w.zeroSet))

/-- Modelled from the spec (engine source missing): `combine` of a positive
ray and a negative ray on a row, using the equivalent integer combination
`positive_value * negative_ray - negative_value * positive_ray`
(the sign choice that keeps all coordinates non-negative), then normalized. -/
def combine (p q : Ray) (row : List Int) : List Int :=
  let a := dot p.vector row
  let b := dot q.vector row
  normalize (List.zipWith (fun x y => a * y - b * x) p.vector q.vector)

/-- Modelled from the spec (engine source missing): `insert_if_new` adds a
ray only if no existing ray's normalized vector coincides with it
(scalar-duplicate rejection is exact integer comparison post-normalization). -/
def insertIfNew (rays : List Ray) (r : Ray) : List Ray :=
  if rays.any (fun s => s.vector = r.vector) then rays else rays ++ [r]

/-- Modelled from the spec (engine source missing): the Row Processor.
Partitions the current rays by the sign of their value on the row; zero-valued
rays pass through with the row index added to their ZeroSet; every adjacent
(positive, negative) pair is combined, the candidate's ZeroSet is the new row
index plus the intersection of the parents' ZeroSets, and the candidate is
kept only if its support is legal; duplicate rejection applies on insertion. -/
def processRow (illegal : List (Finset Nat)) (rowIdx : Nat) (row : List Int)
    (rays : List Ray) : List Ray :=
  let pos := rays.filter (fun r => decide (0 < dot r.vector row))
  let neg := rays.filter (fun r => decide (dot r.vector row < 0))
  let zeros := (rays.filter (fun r => decide (dot r.vector row = 0))).map
      (fun r => Ray.mk r.vector (insert rowIdx r.zeroSet))
  let candidates := pos.flatMap (fun p => neg.filterMap (fun q =>
      let others := (pos ++ neg).filter (fun w => decide (w ≠ p ∧ w ≠ q))
      if adjacent p q others then
        let vec := combine p q row
        if is_legal (support vec) illegal then
          some (Ray.mk vec (insert rowIdx (p.zeroSet ∩ q.zeroSet)))
        else none
      else none))
  (zeros ++ candidates).foldl insertIfNew []

/-- Modelled from the spec (engine source missing): the i-th standard basis
vector of R^n. -/
def basisVector (n i : Nat) : List Int :=
  (List.range n).map (fun j => if j = i then 1 else 0)

/-- Modelled from the spec (engine source missing): the Enumeration Driver's
initial RaySet, the n standard basis rays (empty ZeroSets) filtered by the
Illegal-Support Filter. -/
def initRays (n : Nat) (illegal : List (Finset Nat)) : List Ray :=
  (List.range n).filterMap (fun i =>
    if is_legal (support (basisVector n i)) illegal then
      some (Ray.mk (basisVector n i) ∅)
    else none)

/-- Modelled from the spec (engine source missing): the Enumeration Driver
feeds the rows of M to the Row Processor in input order, starting from the
filtered standard basis, replacing the working RaySet after each row. -/
def enumerate (n : Nat) (M : List (List Int)) (illegal : List (Finset Nat)) :
    List Ray :=
  (M.enum).foldl (fun rays p => processRow illegal p.1 p.2 rays)
    (initRays n illegal)

/-- `u` and `v` generate the same ray: some positive integer multiples of
them coincide (equivalently, `v` is a positive rational multiple of `u`). -/
def isPosMultiple (u v : List Int) : Prop :=
  ∃ a b : Int, 0 < a ∧ 0 < b ∧ u.map (fun x => a * x) = v.map (fun x => b * x)

/-- The Vector invariant of the data model: length n, all coordinates
non-negative, and normalized (entries share no common factor greater
than 1; in particular the vector is not the zero vector). -/
def goodVec (n : Nat) (v : List Int) : Prop :=
  v.length = n ∧ (∀ x ∈ v, 0 ≤ x) ∧ gcdVec v = 1

/-- The RaySet invariant: every stored vector satisfies the Vector
invariant and no two stored vectors coincide. -/
def goodSet (n : Nat) (rays : List Ray) : Prop :=
  (∀ r ∈ rays, goodVec n r.vector) ∧
    rays.Pairwise (fun r s => r.vector ≠ s.vector)

/-- A ray whose support is legal for the given IllegalSupportSet. -/
def legalRay (illegal : List (Finset Nat)) (r : Ray) : Prop :=
  is_legal (support r.vector) illegal = true

/-- The single-quote character, written by code point to keep the source
free of quoting subtleties. -/
def quoteChar : Char := Char.ofNat 39

/-- The newline character (Python's `.` in a regex does not match it). -/
def newlineChar : Char := Char.ofNat 10

/-- The literal part of the regex in `setup.py` line 154,
`__version__ = '` (everything before the parenthesized group). -/
def patternHead : List Char := "__version__ = ".toList ++ [quoteChar]

/-- Embedding of `re.search("__version__ = '(.*)'", content)` attempted at
one fixed position of `content` (given as the suffix `s` starting there):
the literal head must match, and the greedy group `(.*)` — which cannot
cross a newline — extends to the last quote on the rest of the line.
Returns `group(1)` of the match, or `none` if the regex does not match at
this position (in particular when no closing quote exists on the line). -/
def matchGroupAt (s : List Char) : Option (List Char) :=
  if patternHead.isPrefixOf s then
    let rest := (s.drop patternHead.length).takeWhile (fun c => c ≠ newlineChar)
    if rest.contains quoteChar then
      some (((rest.reverse.dropWhile (fun c => c ≠ quoteChar)).drop 1).reverse)
    else none
  else none

/-- Embedding of `re.search` for the fixed pattern: try every position of
the content from left to right and return `group(1)` of the first position
where the whole pattern matches. -/
def reSearch : List Char → Option (List Char)
  | [] => none
  | c :: rest =>
    match matchGroupAt (c :: rest) with
    | some g => some g
    | none => reSearch rest

/-- Embedding of `setup.py` lines 153–155 and the subsequent `setup(...)`
call: the version is `group(1)` of the search; when the search fails,
`re.search` returns `None` and `.group(1)` raises an `AttributeError`
before `setup()` is reached, modelled as `Except.error`. -/
def setupVersion (content : List Char) : Except Unit (List Char) :=
  match reSearch content with
  | some v => Except.ok v
  | none => Except.error ()

/-! ### Basic lemmas on `dot`, `gcdVec`, `normalize` -/

lemma dot_nil_right (v : List Int) : dot v [] = 0 := by
  cases v <;> simp [dot]

lemma dot_cons (x : Int) (v : List Int) (y : Int) (w : List Int) :
    dot (x :: v) (y :: w) = x * y + dot v w := by
  simp [dot]

lemma dot_eq_zero_of_left_zero :
    ∀ (v w : List Int), (∀ x ∈ v, x = 0) → dot v w = 0 := by
  intro v
  induction v with
  | nil => intro w _; simp [dot]
  | cons x t ih =>
    intro w h
    cases w with
    | nil => exact dot_nil_right _
    | cons y w =>
      rw [dot_cons, h x (by simp), ih w (fun z hz => h z (by simp [hz]))]
      ring

lemma dot_zipWith_comb (a b : Int) :
    ∀ (u v w : List Int), u.length = w.length → v.length = w.length →
      dot (List.zipWith (fun x y => a * y - b * x) u v) w
        = a * dot v w - b * dot u w := by
  intro u
  induction u with
  | nil =>
    intro v w hu hv
    cases w with
    | nil => simp [dot]
    | cons y w => simp at hu
  | cons x t ih =>
    intro v w hu hv
    cases w with
    | nil => simp at hu
    | cons r w =>
      cases v with
      | nil => simp at hv
      | cons y v =>
        simp only [List.zipWith_cons_cons, dot_cons]
        rw [ih v w (by simpa using hu) (by simpa using hv)]
        ring

lemma dot_map_div (g : Int) :
    ∀ (v w : List Int), (∀ x ∈ v, g ∣ x) →
      g * dot (v.map (fun x => x / g)) w = dot v w := by
  intro v
  induction v with
  | nil => intro w _; simp [dot]
  | cons x t ih =>
    intro w h
    cases w with
    | nil => simp [dot_nil_right]
    | cons y w =>
      simp only [List.map_cons, dot_cons, mul_add]
      rw [← mul_assoc, Int.mul_ediv_cancel' (h x (by simp)),
        ih w (fun z hz => h z (by simp [hz]))]

lemma gcdVec_nil : gcdVec [] = 0 := rfl

lemma gcdVec_cons (x : Int) (t : List Int) :
    gcdVec (x :: t) = Nat.gcd x.natAbs (gcdVec t) := rfl

lemma gcdVec_dvd : ∀ {v : List Int} {x : Int}, x ∈ v → (gcdVec v : Int) ∣ x := by
  intro v
  induction v with
  | nil => intro x hx; simp at hx
  | cons y t ih =>
    intro x hx
    rcases List.mem_cons.mp hx with h | h
    · subst h
      refine Int.dvd_natAbs.mp ?_
      exact_mod_cast Nat.gcd_dvd_left x.natAbs (gcdVec t)
    · refine dvd_trans ?_ (ih h)
      exact_mod_cast Nat.gcd_dvd_right y.natAbs (gcdVec t)

lemma dvd_gcdVec : ∀ {v : List Int} {k : Nat},
    (∀ x ∈ v, (k : Int) ∣ x) → k ∣ gcdVec v := by
  intro v
  induction v with
  | nil => intro k _; exact Dvd.intro 0 rfl
  | cons y t ih =>
    intro k h
    rw [gcdVec_cons]
    refine Nat.dvd_gcd ?_ (ih (fun x hx => h x (by simp [hx])))
    exact Int.natCast_dvd_natCast.mp (Int.dvd_natAbs.mpr (h y (by simp)))

lemma gcdVec_eq_zero_iff {v : List Int} :
    gcdVec v = 0 ↔ ∀ x ∈ v, x = 0 := by
  induction v with
  | nil => simp [gcdVec_nil]
  | cons y t ih =>
    rw [gcdVec_cons, Nat.gcd_eq_zero_iff]
    simp [ih, Int.natAbs_eq_zero]

lemma natAbs_ediv_of_dvd {d : Nat} {x : Int} (h : (d : Int) ∣ x) :
    (x / (d : Int)).natAbs = x.natAbs / d := by
  rcases Nat.eq_zero_or_pos d with hd | hd
  · subst hd
    have hx : x = 0 := by simpa using h
    simp [hx]
  · obtain ⟨k, hk⟩ := h
    subst hk
    have hdz : (d : Int) ≠ 0 := by exact_mod_cast Nat.pos_iff_ne_zero.mp hd
    rw [Int.mul_ediv_cancel_left _ hdz, Int.natAbs_mul]
    simp [Nat.mul_div_cancel_left _ hd]

lemma gcd_div_div {d A B : Nat} (hA : d ∣ A) (hB : d ∣ B) :
    Nat.gcd (A / d) (B / d) = Nat.gcd A B / d := by
  rcases Nat.eq_zero_or_pos d with hd | hd
  · subst hd
    have : A = 0 := by simpa using hA
    have : B = 0 := by simpa using hB
    simp_all
  · obtain ⟨a, ha⟩ := hA
    obtain ⟨b, hb⟩ := hB
    subst ha; subst hb
    rw [Nat.mul_div_cancel_left _ hd, Nat.mul_div_cancel_left _ hd,
      Nat.gcd_mul_left, Nat.mul_div_cancel_left _ hd]

lemma gcdVec_map_div (d : Nat) :
    ∀ (v : List Int), (∀ x ∈ v, (d : Int) ∣ x) →
      gcdVec (v.map (fun x => x / (d : Int))) = gcdVec v / d := by
  intro v
  induction v with
  | nil => simp [gcdVec_nil]
  | cons y t ih =>
    intro h
    simp only [List.map_cons, gcdVec_cons]
    rw [ih (fun x hx => h x (by simp [hx])), natAbs_ediv_of_dvd (h y (by simp))]
    exact gcd_div_div
      (Int.natCast_dvd_natCast.mp (Int.dvd_natAbs.mpr (h y (by simp))))
      (dvd_gcdVec (fun x hx => h x (by simp [hx])))

lemma gcdVec_normalize {v : List Int} (h : gcdVec v ≠ 0) :
    gcdVec (normalize v) = 1 := by
  unfold normalize
  rw [gcdVec_map_div (gcdVec v) v (fun x hx => gcdVec_dvd hx)]
  exact Nat.div_self (Nat.pos_of_ne_zero h)

lemma length_normalize (v : List Int) : (normalize v).length = v.length := by
  simp [normalize]

lemma normalize_nonneg {v : List Int} (h : ∀ x ∈ v, 0 ≤ x) :
    ∀ y ∈ normalize v, 0 ≤ y := by
  intro y hy
  obtain ⟨x, hx, rfl⟩ := List.mem_map.mp hy
  exact Int.ediv_nonneg (h x hx) (by positivity)

lemma dot_normalize_eq_zero {v w : List Int} (h : dot v w = 0) :
    dot (normalize v) w = 0 := by
  rcases Nat.eq_zero_or_pos (gcdVec v) with hg | hg
  · refine dot_eq_zero_of_left_zero _ _ ?_
    intro y hy
    obtain ⟨x, hx, rfl⟩ := List.mem_map.mp hy
    rw [gcdVec_eq_zero_iff.mp hg x hx]
    simp
  · have hmain := dot_map_div (gcdVec v : Int) v w (fun x hx => gcdVec_dvd hx)
    rw [h] at hmain
    have hgz : (gcdVec v : Int) ≠ 0 := by exact_mod_cast Nat.pos_iff_ne_zero.mp hg
    exact (mul_eq_zero.mp hmain).resolve_left hgz

/-! ### Normalized vectors that span the same ray are equal -/

lemma forall₂_of_map_eq {a b : Int} :
    ∀ (u v : List Int), u.map (fun x => a * x) = v.map (fun x => b * x) →
      List.Forall₂ (fun x y => a * x = b * y) u v := by
  intro u
  induction u with
  | nil =>
    intro v h
    cases v with
    | nil => exact List.Forall₂.nil
    | cons y v => simp at h
  | cons x t ih =>
    intro v h
    cases v with
    | nil => simp at h
    | cons y v =>
      simp only [List.map_cons, List.cons.injEq] at h
      exact List.Forall₂.cons h.1 (ih v h.2)

lemma dvd_right_of_forall₂ {c : Int} {R : Int → Int → Prop}
    (hR : ∀ x y, R x y → c ∣ y) :
    ∀ {u v : List Int}, List.Forall₂ R u v → ∀ y ∈ v, c ∣ y := by
  intro u v h
  induction h with
  | nil => intro y hy; simp at hy
  | cons hxy _ ih =>
    intro y hy
    rcases List.mem_cons.mp hy with h | h
    · exact h ▸ hR _ _ hxy
    · exact ih y h

lemma pos_int_eq_one_of_natAbs_dvd_one {a : Int} (ha : 0 < a)
    (h : a.natAbs ∣ 1) : a = 1 := by
  have h1 : a.natAbs = 1 := Nat.dvd_one.mp h
  rcases Int.natAbs_eq_iff.mp h1 with h2 | h2 <;> omega

lemma eq_of_isPosMultiple {u v : List Int}
    (hu : gcdVec u = 1) (hv : gcdVec v = 1) (h : isPosMultiple u v) : u = v := by
  obtain ⟨a, b, ha, hb, hmap⟩ := h
  set d : Nat := Int.gcd a b with hd
  have hdpos : 0 < d := Int.gcd_pos_of_ne_zero_left b (ne_of_gt ha)
  have hda : (d : Int) ∣ a := Int.gcd_dvd_left
  have hdb : (d : Int) ∣ b := Int.gcd_dvd_right
  obtain ⟨a₁, ha₁⟩ := hda
  obtain ⟨b₁, hb₁⟩ := hdb
  have hdz : (d : Int) ≠ 0 := by exact_mod_cast Nat.pos_iff_ne_zero.mp hdpos
  have ha₁pos : 0 < a₁ := by
    rcases lt_trichotomy a₁ 0 with hlt | heq | hgt
    · exfalso
      have : a < 0 := by
        rw [ha₁]
        exact mul_neg_of_pos_of_neg (by exact_mod_cast hdpos) hlt
      omega
    · exfalso; rw [ha₁, heq, mul_zero] at ha; omega
    · exact hgt
  have hb₁pos : 0 < b₁ := by
    rcases lt_trichotomy b₁ 0 with hlt | heq | hgt
    · exfalso
      have : b < 0 := by
        rw [hb₁]
        exact mul_neg_of_pos_of_neg (by exact_mod_cast hdpos) hlt
      omega
    · exfalso; rw [hb₁, heq, mul_zero] at hb; omega
    · exact hgt
  have hcop : IsCoprime a₁ b₁ := by
    rw [Int.isCoprime_iff_gcd_eq_one]
    have := Int.gcd_div_gcd_div_gcd (i := a) (j := b) hdpos
    have hae : a / (d : Int) = a₁ := by rw [ha₁]; exact Int.mul_ediv_cancel_left _ hdz
    have hbe : b / (d : Int) = b₁ := by rw [hb₁]; exact Int.mul_ediv_cancel_left _ hdz
    rwa [hae, hbe] at this
  have hall := forall₂_of_map_eq u v hmap
  have hstep : ∀ x y, a * x = b * y → a₁ * x = b₁ * y := by
    intro x y hxy
    rw [ha₁, hb₁] at hxy
    have : (d : Int) * (a₁ * x) = (d : Int) * (b₁ * y) := by ring_nf; ring_nf at hxy; exact hxy
    exact mul_left_cancel₀ hdz this
  have hdvd_v : ∀ y ∈ v, a₁ ∣ y := by
    refine dvd_right_of_forall₂ (fun x y hxy => ?_) hall
    have h2 : a₁ * x = b₁ * y := hstep x y hxy
    exact hcop.dvd_of_dvd_mul_left ⟨x, by linarith [h2]⟩
  have hdvd_u : ∀ x ∈ u, b₁ ∣ x := by
    have hall' : List.Forall₂ (fun y x => b * y = a * x) v u :=
      List.Forall₂.flip (hall.imp (fun x y hxy => hxy.symm))
    refine dvd_right_of_forall₂ (fun y x hxy => ?_) hall'
    have h2 : b₁ * y = a₁ * x := by
      have := hstep x y (by linarith [hxy])
      linarith [this]
    exact hcop.symm.dvd_of_dvd_mul_left ⟨y, by linarith [h2]⟩
  have ha₁1 : a₁ = 1 := by
    refine pos_int_eq_one_of_natAbs_dvd_one ha₁pos ?_
    rw [← hv]
    refine dvd_gcdVec (fun y hy => ?_)
    exact Int.natAbs_dvd.mpr (hdvd_v y hy)
  have hb₁1 : b₁ = 1 := by
    refine pos_int_eq_one_of_natAbs_dvd_one hb₁pos ?_
    rw [← hu]
    refine dvd_gcdVec (fun x hx => ?_)
    exact Int.natAbs_dvd.mpr (hdvd_u x hx)
  have hab : a = b := by rw [ha₁, hb₁, ha₁1, hb₁1]
  rw [hab] at hmap
  exact List.map_injective_iff.mpr (mul_right_injective₀ (ne_of_gt hb)) hmap

/-! ### Membership and duplicate-rejection lemmas for the RaySet -/

lemma mem_insertIfNew_elim {acc : List Ray} {x r : Ray}
    (h : r ∈ insertIfNew acc x) : r ∈ acc ∨ r = x := by
  unfold insertIfNew at h
  split at h
  · exact Or.inl h
  · rcases List.mem_append.mp h with h | h
    · exact Or.inl h
    · exact Or.inr (by simpa using h)

lemma mem_foldl_insertIfNew :
    ∀ (l acc : List Ray) (r : Ray), r ∈ l.foldl insertIfNew acc →
      r ∈ acc ∨ r ∈ l := by
  intro l
  induction l with
  | nil => intro acc r h; exact Or.inl h
  | cons x t ih =>
    intro acc r h
    rw [List.foldl_cons] at h
    rcases ih _ r h with h2 | h2
    · rcases mem_insertIfNew_elim h2 with h3 | h3
      · exact Or.inl h3
      · exact Or.inr (by simp [h3])
    · exact Or.inr (by simp [h2])

lemma pairwise_insertIfNew {acc : List Ray} {x : Ray}
    (h : acc.Pairwise (fun r s => r.vector ≠ s.vector)) :
    (insertIfNew acc x).Pairwise (fun r s => r.vector ≠ s.vector) := by
  unfold insertIfNew
  split
  · exact h
  · rename_i hany
    rw [List.pairwise_append]
    refine ⟨h, List.pairwise_singleton _ _, ?_⟩
    intro r hr s hs
    rw [List.mem_singleton] at hs
    subst hs
    intro hcontra
    exact hany (List.any_eq_true.mpr ⟨r, hr, by simp [hcontra]⟩)

lemma pairwise_foldl_insertIfNew :
    ∀ (l acc : List Ray), acc.Pairwise (fun r s => r.vector ≠ s.vector) →
      (l.foldl insertIfNew acc).Pairwise (fun r s => r.vector ≠ s.vector) := by
  intro l
  induction l with
  | nil => intro acc h; exact h
  | cons x t ih =>
    intro acc h
    rw [List.foldl_cons]
    exact ih _ (pairwise_insertIfNew h)

/-- Every ray of the Row Processor's output is either a zero-valued ray
passed through unchanged, or a legal combination of an adjacent
positive/negative pair. -/
lemma processRow_mem {illegal : List (Finset Nat)} {i : Nat} {row : List Int}
    {rays : List Ray} {r : Ray} (h : r ∈ processRow illegal i row rays) :
    (∃ s, s ∈ rays ∧ dot s.vector row = 0 ∧ r.vector = s.vector) ∨
    (∃ p q, p ∈ rays ∧ q ∈ rays ∧ 0 < dot p.vector row ∧
      dot q.vector row < 0 ∧ r.vector = combine p q row ∧
      is_legal (support (combine p q row)) illegal = true) := by
  unfold processRow at h
  rcases mem_foldl_insertIfNew _ _ _ h with h2 | h2
  · simp at h2
  rcases List.mem_append.mp h2 with h3 | h3
  · obtain ⟨s, hs, rfl⟩ := List.mem_map.mp h3
    obtain ⟨hsm, hsz⟩ := List.mem_filter.mp hs
    exact Or.inl ⟨s, hsm, by simpa using hsz, rfl⟩
  · obtain ⟨p, hp, hpr⟩ := List.mem_flatMap.mp h3
    obtain ⟨q, hq, hfq⟩ := List.mem_filterMap.mp hpr
    obtain ⟨hpm, hps⟩ := List.mem_filter.mp hp
    obtain ⟨hqm, hqs⟩ := List.mem_filter.mp hq
    refine Or.inr ⟨p, q, hpm, hqm, by simpa using hps, by simpa using hqs, ?_⟩
    dsimp only at hfq
    split at hfq
    · split at hfq
      · rename_i hleg
        have : r = Ray.mk (combine p q row) (insert i (p.zeroSet ∩ q.zeroSet)) := by
          simpa using hfq.symm
        subst this
        exact ⟨rfl, hleg⟩
      · simp at hfq
    · simp at hfq

/-! ### Preservation of the Vector and RaySet invariants -/

lemma zipWith_comb_nonneg {a b : Int} (ha : 0 < a) (hb : b < 0) :
    ∀ (u v : List Int), (∀ x ∈ u, 0 ≤ x) → (∀ y ∈ v, 0 ≤ y) →
      ∀ z ∈ List.zipWith (fun x y => a * y - b * x) u v, 0 ≤ z := by
  intro u
  induction u with
  | nil => intro v _ _ z hz; simp at hz
  | cons x t ih =>
    intro v hu hv z hz
    cases v with
    | nil => simp at hz
    | cons y s =>
      rw [List.zipWith_cons_cons] at hz
      rcases List.mem_cons.mp hz with h | h
      · have hx : 0 ≤ x := hu x (by simp)
        have hy : 0 ≤ y := hv y (by simp)
        subst h
        nlinarith
      · exact ih s (fun z hz => hu z (by simp [hz]))
          (fun z hz => hv z (by simp [hz])) z h

lemma zipWith_comb_ne_zero {a b : Int} (ha : 0 < a) (hb : b < 0) :
    ∀ (u v : List Int), u.length = v.length →
      (∀ x ∈ u, 0 ≤ x) → (∀ y ∈ v, 0 ≤ y) → (∃ x ∈ u, x ≠ 0) →
      ∃ z ∈ List.zipWith (fun x y => a * y - b * x) u v, z ≠ 0 := by
  intro u
  induction u with
  | nil =>
    intro v _ _ _ hex
    simp at hex
  | cons x t ih =>
    intro v hlen hu hv hex
    cases v with
    | nil => simp at hlen
    | cons y s =>
      rw [List.zipWith_cons_cons]
      by_cases hx : x = 0
      · have hex' : ∃ z ∈ t, z ≠ 0 := by
          rcases hex with ⟨z, hz, hzne⟩
          rcases List.mem_cons.mp hz with h | h
          · exact absurd (h ▸ hx) hzne
          · exact ⟨z, h, hzne⟩
        obtain ⟨z, hz, hzne⟩ := ih s (by simpa using hlen)
          (fun w hw => hu w (by simp [hw])) (fun w hw => hv w (by simp [hw])) hex'
        exact ⟨z, by simp [hz], hzne⟩
      · refine ⟨a * y - b * x, by simp, ?_⟩
        have hxpos : 0 < x := lt_of_le_of_ne (hu x (by simp)) (Ne.symm hx)
        have hy : 0 ≤ y := hv y (by simp)
        nlinarith

lemma combine_goodVec {n : Nat} {p q : Ray} {row : List Int}
    (hp : goodVec n p.vector) (hq : goodVec n q.vector)
    (ha : 0 < dot p.vector row) (hb : dot q.vector row < 0) :
    goodVec n (combine p q row) := by
  obtain ⟨hplen, hpnn, hpg⟩ := hp
  obtain ⟨hqlen, hqnn, hqg⟩ := hq
  have hex : ∃ x ∈ p.vector, x ≠ 0 := by
    by_contra hcon
    push_neg at hcon
    have : gcdVec p.vector = 0 := gcdVec_eq_zero_iff.mpr hcon
    rw [this] at hpg
    exact absurd hpg (by norm_num)
  have hwnn := zipWith_comb_nonneg ha hb p.vector q.vector hpnn hqnn
  have hwne := zipWith_comb_ne_zero ha hb p.vector q.vector
    (hplen.trans hqlen.symm) hpnn hqnn hex
  have hgw : gcdVec (List.zipWith
      (fun x y => dot p.vector row * y - dot q.vector row * x)
      p.vector q.vector) ≠ 0 := by
    intro hzero
    obtain ⟨z, hz, hzne⟩ := hwne
    exact hzne (gcdVec_eq_zero_iff.mp hzero z hz)
  unfold combine
  refine ⟨?_, normalize_nonneg hwnn, gcdVec_normalize hgw⟩
  rw [length_normalize, List.length_zipWith, hplen, hqlen]
  exact Nat.min_self n

lemma processRow_goodSet {n : Nat} {illegal : List (Finset Nat)} {i : Nat}
    {row : List Int} {rays : List Ray} (h : goodSet n rays) :
    goodSet n (processRow illegal i row rays) := by
  constructor
  · intro r hr
    rcases processRow_mem hr with ⟨s, hs, _, hveq⟩ |
      ⟨p, q, hpm, hqm, hps, hqs, hveq, _⟩
    · rw [hveq]; exact h.1 s hs
    · rw [hveq]; exact combine_goodVec (h.1 p hpm) (h.1 q hqm) hps hqs
  · exact pairwise_foldl_insertIfNew _ _ List.Pairwise.nil

lemma basisVector_getD {n i k : Nat} (hk : k < n) :
    (basisVector n i).getD k 0 = if k = i then 1 else 0 := by
  unfold basisVector
  rw [List.getD_eq_getElem?_getD, List.getElem?_map, List.getElem?_range hk]
  simp

lemma basisVector_goodVec {n i : Nat} (h : i < n) :
    goodVec n (basisVector n i) := by
  refine ⟨by simp [basisVector], ?_, ?_⟩
  · intro x hx
    obtain ⟨j, _, rfl⟩ := List.mem_map.mp hx
    split <;> norm_num
  · have hone : (1 : Int) ∈ basisVector n i :=
      List.mem_map.mpr ⟨i, List.mem_range.mpr h, by simp⟩
    have hdvd : (gcdVec (basisVector n i) : Int) ∣ (1 : Int) := gcdVec_dvd hone
    have : gcdVec (basisVector n i) ∣ 1 := by exact_mod_cast hdvd
    exact Nat.dvd_one.mp this

lemma basisVector_ne {n i j : Nat} (hi : i < n) (hij : i ≠ j) :
    basisVector n i ≠ basisVector n j := by
  intro heq
  have := congrArg (fun l => l.getD i 0) heq
  simp only [basisVector_getD hi] at this
  rw [if_neg hij] at this
  simp at this

lemma pairwise_filterMap_of {α β : Type} {R : α → α → Prop} {S : β → β → Prop}
    {f : α → Option β} :
    ∀ (l : List α),
      (∀ a b x y, a ∈ l → b ∈ l → R a b → f a = some x → f b = some y → S x y) →
      l.Pairwise R → (l.filterMap f).Pairwise S := by
  intro l
  induction l with
  | nil => intro _ _; simp
  | cons a t ih =>
    intro h hp
    rw [List.pairwise_cons] at hp
    rw [List.filterMap_cons]
    cases hfa : f a with
    | none =>
      exact ih (fun a' b' x y ha' hb' => h a' b' x y (by simp [ha']) (by simp [hb'])) hp.2
    | some x =>
      rw [List.pairwise_cons]
      constructor
      · intro y hy
        obtain ⟨b, hb, hfb⟩ := List.mem_filterMap.mp hy
        exact h a b x y (by simp) (by simp [hb]) (hp.1 b hb) hfa hfb
      · exact ih (fun a' b' x' y' ha' hb' => h a' b' x' y' (by simp [ha']) (by simp [hb'])) hp.2

lemma initRays_goodSet (n : Nat) (illegal : List (Finset Nat)) :
    goodSet n (initRays n illegal) := by
  constructor
  · intro r hr
    obtain ⟨i, hi, hfi⟩ := List.mem_filterMap.mp hr
    split at hfi
    · cases hfi
      exact basisVector_goodVec (List.mem_range.mp hi)
    · simp at hfi
  · unfold initRays
    refine pairwise_filterMap_of (R := fun a b => a < b) _ ?_ (List.pairwise_lt_range n)
    intro a b x y ha hb hab hfa hfb
    split at hfa
    · cases hfa
      split at hfb
      · cases hfb
        exact basisVector_ne (List.mem_range.mp ha) (Nat.ne_of_lt hab)
      · simp at hfb
    · simp at hfa

lemma foldl_processRow_inv (illegal : List (Finset Nat)) (P : List Ray → Prop)
    (hstep : ∀ i row rays, P rays → P (processRow illegal i row rays)) :
    ∀ (l : List (Nat × List Int)) (init : List Ray), P init →
      P (l.foldl (fun rays pr => processRow illegal pr.1 pr.2 rays) init) := by
  intro l
  induction l with
  | nil => exact fun init h => h
  | cons x t ih =>
    intro init h
    rw [List.foldl_cons]
    exact ih _ (hstep _ _ _ h)

lemma enumerate_goodSet (n : Nat) (M : List (List Int))
    (illegal : List (Finset Nat)) : goodSet n (enumerate n M illegal) :=
  foldl_processRow_inv illegal (goodSet n)
    (fun _ _ _ h => processRow_goodSet h) M.enum (initRays n illegal)
    (initRays_goodSet n illegal)

lemma processRow_legal {illegal : List (Finset Nat)} {i : Nat} {row : List Int}
    {rays : List Ray} (h : ∀ r ∈ rays, legalRay illegal r) :
    ∀ r ∈ processRow illegal i row rays, legalRay illegal r := by
  intro r hr
  rcases processRow_mem hr with ⟨s, hs, _, hveq⟩ | ⟨p, q, _, _, _, _, hveq, hleg⟩
  · unfold legalRay
    rw [hveq]
    exact h s hs
  · unfold legalRay
    rw [hveq]
    exact hleg

lemma initRays_legal (n : Nat) (illegal : List (Finset Nat)) :
    ∀ r ∈ initRays n illegal, legalRay illegal r := by
  intro r hr
  obtain ⟨i, _, hfi⟩ := List.mem_filterMap.mp hr
  split at hfi
  · cases hfi
    assumption
  · simp at hfi

lemma enumerate_legal (n : Nat) (M : List (List Int))
    (illegal : List (Finset Nat)) :
    ∀ r ∈ enumerate n M illegal, legalRay illegal r :=
  foldl_processRow_inv illegal (fun rays => ∀ r ∈ rays, legalRay illegal r)
    (fun _ _ _ h => processRow_legal h) M.enum (initRays n illegal)
    (initRays_legal n illegal)

/-! ### The filter and adjacency predicates, and the empty-set terminal state -/

lemma is_legal_iff (supp : Finset Nat) (illegal : List (Finset Nat)) :
    is_legal supp illegal = true ↔ ∀ s ∈ illegal, ¬ s ⊆ supp := by
  simp [is_legal, List.all_eq_true]

lemma adjacent_iff (u v : Ray) (others : List Ray) :
    adjacent u v others = true ↔
      ∀ w ∈ others, ¬ (u.zeroSet ∩ v.zeroSet ⊆ w.zeroSet) := by
  simp [adjacent, List.all_eq_true]

lemma processRow_nil (illegal : List (Finset Nat)) (i : Nat) (row : List Int) :
    processRow illegal i row [] = [] := rfl

lemma foldl_processRow_nil (illegal : List (Finset Nat)) :
    ∀ (l : List (Nat × List Int)),
      l.foldl (fun rays pr => processRow illegal pr.1 pr.2 rays) [] = [] := by
  intro l
  induction l with
  | nil => rfl
  | cons x t ih =>
    rw [List.foldl_cons, processRow_nil]
    exact ih

/-! ### The version-extraction search of `setup.py` -/

lemma matchGroupAt_nil : matchGroupAt [] = none := by decide

lemma reSearch_some_iff :
    ∀ (content g : List Char),
      reSearch content = some g ↔
        ∃ i, matchGroupAt (content.drop i) = some g ∧
          ∀ j < i, matchGroupAt (content.drop j) = none := by
  intro content
  induction content with
  | nil =>
    intro g
    constructor
    · intro h
      simp [reSearch] at h
    · intro ⟨i, hi, _⟩
      rw [List.drop_nil, matchGroupAt_nil] at hi
      simp at hi
  | cons c rest ih =>
    intro g
    constructor
    · intro h
      rw [reSearch] at h
      cases hm : matchGroupAt (c :: rest) with
      | some g₀ =>
        rw [hm] at h
        refine ⟨0, ?_, fun j hj => absurd hj (Nat.not_lt_zero j)⟩
        simpa using hm.trans h
      | none =>
        rw [hm] at h
        obtain ⟨i, hi, hall⟩ := (ih g).mp h
        refine ⟨i + 1, by simpa [List.drop_succ_cons] using hi, ?_⟩
        intro j hj
        cases j with
        | zero => simpa using hm
        | succ k =>
          rw [List.drop_succ_cons]
          exact hall k (Nat.lt_of_succ_lt_succ hj)
    · intro ⟨i, hi, hall⟩
      rw [reSearch]
      cases i with
      | zero =>
        simp only [List.drop_zero] at hi
        rw [hi]
      | succ k =>
        have h0 : matchGroupAt (c :: rest) = none := by
          simpa using hall 0 (Nat.succ_pos k)
        rw [h0]
        refine (ih g).mpr ⟨k, by simpa [List.drop_succ_cons] using hi, ?_⟩
        intro j hj
        have := hall (j + 1) (Nat.succ_lt_succ hj)
        simpa [List.drop_succ_cons] using this

lemma reSearch_none_iff :
    ∀ (content : List Char),
      reSearch content = none ↔
        ∀ i, matchGroupAt (content.drop i) = none := by
  intro content
  induction content with
  | nil =>
    constructor
    · intro _ i
      rw [List.drop_nil]
      exact matchGroupAt_nil
    · intro _
      rfl
  | cons c rest ih =>
    constructor
    · intro h i
      rw [reSearch] at h
      cases hm : matchGroupAt (c :: rest) with
      | some g₀ => rw [hm] at h; simp at h
      | none =>
        rw [hm] at h
        cases i with
        | zero => simpa using hm
        | succ k =>
          rw [List.drop_succ_cons]
          exact (ih.mp h) k
    · intro h
      rw [reSearch]
      have h0 : matchGroupAt (c :: rest) = none := by simpa using h 0
      rw [h0]
      refine ih.mpr (fun i => ?_)
      have := h (i + 1)
      simpa [List.drop_succ_cons] using this

/-! ### Claim theorems -/

/-- C1: the claim asserts the Enumeration Driver returns exactly the extremal
rays of the filtered cone.  Evaluating the engine modelled from the spec at
the spec's own example scenario 2 (`M = [[1,1,-1]]`, n = 3, no illegal
supports) returns the empty collection, although `[1,0,1]` is a non-negative,
normalized, legal vector of the null space (per the spec, the answer must be
`{(1,0,1), (0,1,1)}`): the row-index ZeroSet design makes the adjacency test
reject every pair once a third ray is present, so the returned collection is
not the set of extremal rays. -/
theorem claim_C1_failing_eval :
    enumerate 3 [[1, 1, -1]] [] = [] ∧
    dot [1, 0, 1] [1, 1, -1] = 0 ∧
    (∀ x ∈ ([1, 0, 1] : List Int), 0 ≤ x) ∧
    gcdVec [1, 0, 1] = 1 ∧
    is_legal (support [1, 0, 1]) [] = true := by
  refine ⟨by decide, by decide, by decide, by decide, by decide⟩

/-- C2: `is_legal(support)` is true iff the support is not a superset of any
set in the IllegalSupportSet, and consequently the support of every vector
returned by the Enumeration Driver contains no member of the
IllegalSupportSet. -/
theorem claim_C2 :
    (∀ (supp : Finset Nat) (illegal : List (Finset Nat)),
      is_legal supp illegal = true ↔ ∀ s ∈ illegal, ¬ s ⊆ supp) ∧
    (∀ (n : Nat) (M : List (List Int)) (illegal : List (Finset Nat)) (r : Ray),
      r ∈ enumerate n M illegal → ∀ s ∈ illegal, ¬ s ⊆ support r.vector) := by
  refine ⟨is_legal_iff, ?_⟩
  intro n M illegal r hr s hs
  exact (is_legal_iff _ _).mp (enumerate_legal n M illegal r hr) s hs

/-- Witness for C2 at a concrete input: the ray `(1,0)` survives enumeration
with illegal support `{1}` and its support indeed contains no illegal set. -/
theorem claim_C2_witness : ¬ ({1} : Finset Nat) ⊆ support [1, 0] :=
  claim_C2.2 2 [] [{1}] (Ray.mk [1, 0] ∅) (by decide) {1} (by decide)

/-- C3: the Adjacency Tester declares a positive/negative pair (p, q)
adjacent iff no other ray w of the positive-or-negative partition has
Z(w) ⊇ Z(p) ∩ Z(q), and the outcome depends only on which rays are in the
consulted collection, not on their order. -/
theorem claim_C3 :
    (∀ (u v : Ray) (others : List Ray),
      adjacent u v others = true ↔
        ∀ w ∈ others, ¬ (u.zeroSet ∩ v.zeroSet ⊆ w.zeroSet)) ∧
    (∀ (p q : Ray) (pos neg : List Ray),
      adjacent p q ((pos ++ neg).filter (fun w => decide (w ≠ p ∧ w ≠ q))) = true ↔
        ∀ w, (w ∈ pos ∨ w ∈ neg) → w ≠ p → w ≠ q →
          ¬ (p.zeroSet ∩ q.zeroSet ⊆ w.zeroSet)) ∧
    (∀ (u v : Ray) (l₁ l₂ : List Ray), (∀ w, w ∈ l₁ ↔ w ∈ l₂) →
      adjacent u v l₁ = adjacent u v l₂) := by
  refine ⟨adjacent_iff, ?_, ?_⟩
  · intro p q pos neg
    rw [adjacent_iff]
    constructor
    · intro h w hw hwp hwq
      exact h w (List.mem_filter.mpr
        ⟨List.mem_append.mpr hw, by simp [hwp, hwq]⟩)
    · intro h w hw
      obtain ⟨hw₁, hcond⟩ := List.mem_filter.mp hw
      simp only [decide_eq_true_eq] at hcond
      exact h w (List.mem_append.mp hw₁) hcond.1 hcond.2
  · intro u v l₁ l₂ hmem
    refine Bool.coe_iff_coe.mp ?_
    rw [adjacent_iff, adjacent_iff]
    constructor
    · intro h w hw
      exact h w ((hmem w).mpr hw)
    · intro h w hw
      exact h w ((hmem w).mp hw)

/-- Witness for C3 at a concrete input: the adjacency verdict is unchanged
when the other rays are consulted in the opposite order. -/
theorem claim_C3_witness :
    adjacent (Ray.mk [1] {0}) (Ray.mk [1, 1] {1})
        [Ray.mk [2] {2}, Ray.mk [3] {0, 1}]
      = adjacent (Ray.mk [1] {0}) (Ray.mk [1, 1] {1})
        [Ray.mk [3] {0, 1}, Ray.mk [2] {2}] :=
  claim_C3.2.2 (Ray.mk [1] {0}) (Ray.mk [1, 1] {1})
    [Ray.mk [2] {2}, Ray.mk [3] {0, 1}]
    [Ray.mk [3] {0, 1}, Ray.mk [2] {2}]
    (fun w => by simp [List.mem_cons]; tauto)

/-- C4: for a positive ray p and a negative ray q on a row, `combine`
produces the normalization of the exact integer combination
`positive_value * q - negative_value * p` (the combination equivalent to the
spec's `negative_value * p - positive_value * q`, with the sign that keeps
coordinates non-negative), and the combined vector's value on the row is
exactly zero, in exact unbounded-integer arithmetic. -/
theorem claim_C4 :
    ∀ (p q : Ray) (row : List Int),
      p.vector.length = row.length → q.vector.length = row.length →
      0 < dot p.vector row → dot q.vector row < 0 →
      combine p q row = normalize (List.zipWith
        (fun x y => dot p.vector row * y - dot q.vector row * x)
        p.vector q.vector) ∧
      dot (combine p q row) row = 0 := by
  intro p q row hplen hqlen hpos hneg
  refine ⟨rfl, ?_⟩
  have hz : dot (List.zipWith
      (fun x y => dot p.vector row * y - dot q.vector row * x)
      p.vector q.vector) row = 0 := by
    rw [dot_zipWith_comb (dot p.vector row) (dot q.vector row)
      p.vector q.vector row hplen hqlen]
    ring
  exact dot_normalize_eq_zero hz

/-- Witness for C4 at a concrete input: combining the rays `(1,0)` and
`(0,1)` on the row `(1,-1)` yields a vector with exact row-value zero. -/
theorem claim_C4_witness :
    dot (combine (Ray.mk [1, 0] ∅) (Ray.mk [0, 1] ∅) [1, -1]) [1, -1] = 0 :=
  (claim_C4 (Ray.mk [1, 0] ∅) (Ray.mk [0, 1] ∅) [1, -1]
    (by decide) (by decide) (by decide) (by decide)).2

/-- C5: every vector produced by the Enumeration Driver is normalized (its
entries share no common factor greater than 1) and is not the zero vector,
no two rays of the result are positive scalar multiples of one another, and
both the initial seeding and every Row Processor step preserve the RaySet
invariant (normalized non-zero non-negative vectors of length n, pairwise
distinct). -/
theorem claim_C5 :
    ∀ (n : Nat) (M : List (List Int)) (illegal : List (Finset Nat)),
      (∀ r ∈ enumerate n M illegal,
        gcdVec r.vector = 1 ∧ ∃ x ∈ r.vector, x ≠ 0) ∧
      (enumerate n M illegal).Pairwise
        (fun r s => ¬ isPosMultiple r.vector s.vector) ∧
      goodSet n (initRays n illegal) ∧
      (∀ (i : Nat) (row : List Int) (rays : List Ray),
        goodSet n rays → goodSet n (processRow illegal i row rays)) := by
  intro n M illegal
  have hg := enumerate_goodSet n M illegal
  refine ⟨?_, ?_, initRays_goodSet n illegal,
    fun i row rays h => processRow_goodSet h⟩
  · intro r hr
    obtain ⟨hlen, hnn, hgcd⟩ := hg.1 r hr
    refine ⟨hgcd, ?_⟩
    by_contra hcon
    push_neg at hcon
    have hzero : gcdVec r.vector = 0 := gcdVec_eq_zero_iff.mpr hcon
    rw [hzero] at hgcd
    exact absurd hgcd (by norm_num)
  · refine List.Pairwise.imp_of_mem ?_ hg.2
    intro r s hr hs hne hmul
    exact hne (eq_of_isPosMultiple (hg.1 r hr).2.2 (hg.1 s hs).2.2 hmul)

/-- Witness for C5 at a concrete input: the ray `(1,0)` returned for
`n = 2`, no rows, no illegal supports, is normalized and non-zero. -/
theorem claim_C5_witness :
    gcdVec [1, 0] = 1 ∧ ∃ x ∈ ([1, 0] : List Int), x ≠ 0 :=
  (claim_C5 2 [] []).1 (Ray.mk [1, 0] ∅) (by decide)

/-- C6: the Enumeration Driver's initial RaySet consists exactly of the
standard basis rays with empty ZeroSets that pass the Illegal-Support
Filter, a matrix with no rows returns that initial RaySet unchanged, and in
particular for n = 2, no rows and no illegal supports the result is exactly
{(1,0), (0,1)}. -/
theorem claim_C6 :
    (∀ (n : Nat) (illegal : List (Finset Nat)) (r : Ray),
      r ∈ initRays n illegal ↔
        ∃ i, i < n ∧ r = Ray.mk (basisVector n i) ∅ ∧
          is_legal (support (basisVector n i)) illegal = true) ∧
    (∀ (n : Nat) (illegal : List (Finset Nat)),
      enumerate n [] illegal = initRays n illegal) ∧
    enumerate 2 [] [] = [Ray.mk [1, 0] ∅, Ray.mk [0, 1] ∅] := by
  refine ⟨?_, fun n illegal => rfl, by decide⟩
  intro n illegal r
  constructor
  · intro hr
    obtain ⟨i, hi, hfi⟩ := List.mem_filterMap.mp hr
    split at hfi
    · cases hfi
      exact ⟨i, List.mem_range.mp hi, rfl, by assumption⟩
    · simp at hfi
  · intro ⟨i, hi, hr, hleg⟩
    refine List.mem_filterMap.mpr ⟨i, List.mem_range.mpr hi, ?_⟩
    rw [if_pos hleg, hr]

/-- Witness for C6 at a concrete input: the basis ray `(1,0)` with empty
ZeroSet is among the initial rays for n = 2 with no illegal supports. -/
theorem claim_C6_witness : Ray.mk [1, 0] ∅ ∈ initRays 2 [] :=
  (claim_C6.1 2 [] (Ray.mk [1, 0] ∅)).mpr ⟨0, by decide, by decide, by decide⟩

/-- C7: the claim asserts row-order invariance of the final ray set.  On the
engine modelled from the spec it fails: for the matrix with rows
`[1,0,0,-1]` and `[1,1,-1,-1]` (n = 4, no illegal supports), one row order
returns two rays while the swapped order returns none, because with the
spec's row-index ZeroSets the adjacency test rejects every pair of the four
initial rays on row `[1,1,-1,-1]`. -/
theorem claim_C7_failing_eval :
    List.Perm [[1, 0, 0, -1], [1, 1, -1, -1]] [[1, 1, -1, -1], [1, 0, 0, -1]] ∧
    enumerate 4 [[1, 1, -1, -1], [1, 0, 0, -1]] [] = [] ∧
    enumerate 4 [[1, 0, 0, -1], [1, 1, -1, -1]] [] ≠ [] := by
  exact ⟨List.Perm.swap _ _ _, by decide, by decide⟩

/-- C8: a Row Processor step on an empty RaySet yields the empty RaySet, and
whenever the working RaySet is empty after some prefix of the rows, the
Enumeration Driver's final answer is the empty collection — a normal result,
not an error (the driver is a total function). -/
theorem claim_C8 :
    (∀ (illegal : List (Finset Nat)) (i : Nat) (row : List Int),
      processRow illegal i row [] = []) ∧
    (∀ (n : Nat) (M : List (List Int)) (illegal : List (Finset Nat)) (k : Nat),
      (M.enum.take k).foldl (fun rays pr => processRow illegal pr.1 pr.2 rays)
        (initRays n illegal) = [] →
      enumerate n M illegal = []) := by
  refine ⟨processRow_nil, ?_⟩
  intro n M illegal k h
  have hsplit : M.enum = M.enum.take k ++ M.enum.drop k :=
    (List.take_append_drop k M.enum).symm
  unfold enumerate
  rw [hsplit, List.foldl_append, h]
  exact foldl_processRow_nil illegal _

/-- Witness for C8 at a concrete input: for `M = [[1,1,-1,-1],[0,0,1,-1]]`
the RaySet is empty after the first row, and the final answer is empty. -/
theorem claim_C8_witness :
    enumerate 4 [[1, 1, -1, -1], [0, 0, 1, -1]] [] = [] :=
  claim_C8.2 4 [[1, 1, -1, -1], [0, 0, 1, -1]] [] 1 (by decide)

/-- C9: the claim asserts that enlarging the IllegalSupportSet never
increases the size of the result.  On the engine modelled from the spec it
fails: for `M = [[1,1,-1]]`, n = 3, the empty filter returns 0 rays while
the larger filter `[{0}]` returns 1 ray (removing the basis ray `(1,0,0)`
up front unblocks the adjacency test for the remaining pair). -/
theorem claim_C9_failing_eval :
    ([] : List (Finset Nat)) ⊆ [({0} : Finset Nat)] ∧
    (enumerate 3 [[1, 1, -1]] []).length = 0 ∧
    (enumerate 3 [[1, 1, -1]] [({0} : Finset Nat)]).length = 1 := by
  exact ⟨List.nil_subset _, by decide, by decide⟩

/-- C10: `setup.py` extracts the version as `group(1)` of the first position
where the regex `__version__ = '(.*)'` matches the contents of
`python_src/__init__.py` (greedy group, confined to one line), and when no
position matches, the `None` returned by `re.search` makes `.group(1)` raise
before `setup()` is invoked, so no metadata is produced without a version. -/
theorem claim_C10 :
    (∀ (content g : List Char),
      reSearch content = some g ↔
        ∃ i, matchGroupAt (content.drop i) = some g ∧
          ∀ j < i, matchGroupAt (content.drop j) = none) ∧
    (∀ content : List Char,
      setupVersion content = Except.error () ↔
        ∀ i, matchGroupAt (content.drop i) = none) ∧
    setupVersion (patternHead ++ "1.3".toList ++ [quoteChar])
      = Except.ok "1.3".toList := by
  refine ⟨reSearch_some_iff, ?_, rfl⟩
  intro content
  have hiff : setupVersion content = Except.error () ↔
      reSearch content = none := by
    unfold setupVersion
    cases h : reSearch content with
    | some v => simp
    | none => simp
  rw [hiff]
  exact reSearch_none_iff content

/-- Witness for C10 at a concrete input: on empty file contents the version
extraction fails before `setup()` is reached. -/
theorem claim_C10_witness : setupVersion [] = Except.error () :=
  (claim_C10.2.1 []).mpr (fun i => by rw [List.drop_nil]; decide)

end FXrays
